import Mathlib

/-!
Shallow embedding of `src/tlqueue.rs` (rossdylan/rust-scottqueue): a two-lock
Michael–Scott style FIFO queue over a singly linked list of heap nodes with a
dummy head sentinel.

Memory model: the Rust heap is modelled as a list of cells indexed by address
(`Nat`).  `Box::into_raw(Box::new n)` allocates a fresh cell at address
`mem.length` (a non-reusing allocator: addresses are never recycled, matching
the runs the repository's own tests exercise).  Dropping a `Box` obtained from
`Box::from_raw` marks the cell dead (`live := false`) but keeps its last
contents, so a read through a dangling pointer still returns the old bytes —
exactly what lets the source's use-after-free in `pop` go unnoticed at run
time while remaining detectable here through the `live` flag.

Raw pointers `*mut Node<T>` are modelled as `Option Nat`: `none` is the null
pointer, `some a` points at cell `a`.  A dereference is a lookup `mem[a]?`
which fails (`none` in the `Option` monad) on a wild address; operations
therefore return `Option` results, with `none` standing for undefined
behaviour or a panic.
-/

/-- `Node<T>` from the source: an optional payload and a raw `next` pointer
(null = `none`). -/
structure Node (α : Type) where
  value : Option α
  next : Option Nat
deriving Repr, DecidableEq

/-- A heap cell: the node stored there plus whether the allocation is still
live (`Box::from_raw` + drop flips `live` to `false` without erasing the
contents). -/
structure Cell (α : Type) where
  node : Node α
  live : Bool
deriving Repr, DecidableEq

/-- The heap: cell `a` of `mem` is `mem[a]?`; allocation appends. -/
def Mem (α : Type) := List (Cell α)

/-- `Node::new(v)`: `Box::into_raw(Box::new(Node { next: ptr::null_mut(), value: v }))`.
Returns the extended heap and the fresh address. -/
def Node.new (mem : List (Cell α)) (v : Option α) : List (Cell α) × Nat :=
  (mem ++ [⟨⟨v, none⟩, true⟩], mem.length)

/-- Drop of the `Box<Node<T>>` recreated by `Box::from_raw(p)`: deallocate
cell `a` (contents are retained by the model's non-reusing allocator). -/
def memFree (mem : List (Cell α)) (a : Nat) : List (Cell α) :=
  match mem[a]? with
  | none => mem
  | some c => mem.set a ⟨c.node, false⟩

/-- `Queue<T>`: the two lock-protected pointers `head` and `tail`, together
with the heap the nodes live in (in Rust the heap is ambient; here it is
explicit state). -/
structure Queue (α : Type) where
  mem : List (Cell α)
  head : Option Nat
  tail : Option Nat
deriving Repr, DecidableEq

namespace Queue

/-- `Queue::new()`: allocate one sentinel node with payload `None` and null
`next`; both `head` and `tail` point at it. -/
def new : Queue α :=
  ⟨[⟨⟨none, none⟩, true⟩], some 0, some 0⟩

/-- `Queue::push(&self, value)`:
```rust
let new_node : *mut Node<T> = Node::new(Some(value));
let mut tail = self.tail.lock().unwrap();
unsafe {
    (**tail).next = new_node;
    *tail = new_node;
}
```
`none` models undefined behaviour (dereferencing a null or wild `tail`). -/
def push (q : Queue α) (value : α) : Option (Queue α) := do
  let (mem₀, new_node) := Node.new q.mem (some value)
  let t ← q.tail
  let tc ← mem₀[t]?
  let mem₁ := mem₀.set t ⟨⟨tc.node.value, some new_node⟩, tc.live⟩
  pure ⟨mem₁, q.head, some new_node⟩

/-- `Queue::pop(&self)`:
```rust
let mut head = self.head.lock().unwrap();
unsafe {
    if (**head).next.is_null() { return None; }
    let value = (*(**head).next).value.take().unwrap();
    let _: Box<Node<T>> = Box::from_raw(*head);
    *head = (**head).next;
    return Some(value);
}
```
The result is `some (r, q')` for a normal return (`r` the popped value, `q'`
the new state); the outer `none` models a panic (`unwrap` of `None`) or a
wild dereference.  Note the source order is kept: the old sentinel is freed
*before* `*head = (**head).next` re-reads its `next` field. -/
def pop (q : Queue α) : Option (Option α × Queue α) := do
  let h ← q.head
  let hc ← q.mem[h]?
  match hc.node.next with
  | none => pure (none, q)
  | some n => do
      let sc ← q.mem[n]?
      let value ← sc.node.value
      let mem₁ := q.mem.set n ⟨⟨none, sc.node.next⟩, sc.live⟩
      let mem₂ := memFree mem₁ h
      let hc₂ ← mem₂[h]?
      pure (some value, ⟨mem₂, hc₂.node.next, q.tail⟩)

/-- Instrumentation of `pop`'s final step: retraces `pop` on the value branch
and reports whether the read performed by `*head = (**head).next` targets a
cell that has already been deallocated (use-after-free). -/
def popReadsRetired (q : Queue α) : Bool :=
  match q.head with
  | none => false
  | some h =>
    match q.mem[h]? with
    | none => false
    | some hc =>
      match hc.node.next with
      | none => false
      | some n =>
        match q.mem[n]? with
        | none => false
        | some sc =>
          match sc.node.value with
          | none => false
          | some _ =>
            let mem₁ := q.mem.set n ⟨⟨none, sc.node.next⟩, sc.live⟩
            let mem₂ := memFree mem₁ h
            match mem₂[h]? with
            | none => true
            | some c => !c.live

/-- `for item in iterator { q.push(item) }` (the loop body of
`FromIterator::from_iter`), starting from an arbitrary queue. -/
def pushAll (q : Queue α) : List α → Option (Queue α)
  | [] => some q
  | v :: vs => do
      let q₁ ← q.push v
      pushAll q₁ vs

/-- `FromIterator::from_iter`: `let q = Queue::new(); for item in iterator { q.push(item) }; q`. -/
def fromIter (vs : List α) : Option (Queue α) :=
  pushAll new vs

/-- Call `pop` exactly `n` times (`Iterator::next` is just `pop`), collecting
the `n` optional results. -/
def popN (q : Queue α) : Nat → Option (List (Option α) × Queue α)
  | 0 => some ([], q)
  | n + 1 => do
      let (r, q₁) ← q.pop
      let (rs, q₂) ← popN q₁ n
      pure (r :: rs, q₂)

/-- Draining loop of `Iterator for Queue` (`collect`): call `pop` until it
returns `None`.  `fuel`-bounded so it is total; `drain` below supplies enough
fuel for any well-formed queue. -/
def drainAux : Nat → Queue α → Option (List α)
  | 0, _ => none
  | fuel + 1, q => do
      let (r, q₁) ← q.pop
      match r with
      | none => pure []
      | some v => do
          let rest ← drainAux fuel q₁
          pure (v :: rest)

/-- Drain the queue to a list (the `collect` of the source's tests).  A queue
never holds more elements than it has heap cells, so `q.mem.length + 1` steps
of fuel always suffice. -/
def drain (q : Queue α) : Option (List α) :=
  drainAux (q.mem.length + 1) q

/-- Abstraction: the still-queued values, head→tail.  Under the invariant the
queued nodes occupy the cells strictly after the sentinel's address. -/
def toList (q : Queue α) : List α :=
  match q.head with
  | none => []
  | some h => (q.mem.drop (h + 1)).filterMap (fun c => c.node.value)

/-- The structural invariant tying a queue state to the sentinel address `h`
and abstract contents `vs`: cells `0..len-1` were allocated in chain order
(`next` of cell `i` is `i+1`, the last is null), `tail` points at the last
cell, cells before the sentinel are retired (dead), the sentinel and every
retired cell carry no payload, and the cells after the sentinel carry exactly
`vs`, in order. -/
structure WFat (q : Queue α) (h : Nat) (vs : List α) : Prop where
  head_eq : q.head = some h
  tail_eq : q.tail = some (q.mem.length - 1)
  h_lt : h < q.mem.length
  len_vals : vs.length = q.mem.length - (h + 1)
  next_eq : ∀ i c, q.mem[i]? = some c →
    c.node.next = if i + 1 = q.mem.length then none else some (i + 1)
  live_iff : ∀ i c, q.mem[i]? = some c → (c.live = true ↔ h ≤ i)
  value_dead : ∀ i c, q.mem[i]? = some c → i ≤ h → c.node.value = none
  value_at : ∀ i c, q.mem[i]? = some c → h < i → c.node.value = vs[i - (h + 1)]?

/-- A queue state is well formed when some sentinel address and contents list
satisfy `WFat`. -/
def WF (q : Queue α) : Prop := ∃ h vs, WFat q h vs

end Queue

/-- The states reachable from `Queue::new()` by sequences of `push` and `pop`
(only runs where the operation returned normally). -/
inductive Reachable : Queue α → Prop
  | new : Reachable Queue.new
  | push {q q' : Queue α} {v : α} : Reachable q → q.push v = some q' → Reachable q'
  | pop {q q' : Queue α} {r : Option α} : Reachable q → q.pop = some (r, q') → Reachable q'

/-- `Chain mem a addrs`: starting at address `a` and repeatedly following the
`next` links, one traverses exactly the addresses `addrs` (ending at a node
whose `next` is the null pointer). -/
inductive Chain (mem : List (Cell α)) : Nat → List Nat → Prop
  | last {a : Nat} {c : Cell α} :
      mem[a]? = some c → c.node.next = none → Chain mem a [a]
  | cons {a b : Nat} {c : Cell α} {rest : List Nat} :
      mem[a]? = some c → c.node.next = some b → Chain mem b rest →
      Chain mem a (a :: rest)

/-- The concrete state reached by `Queue::new()` followed by `push(0)`
(over `T = i64`, modelled as `Nat`): sentinel at cell 0 linking to the one
queued node at cell 1. -/
def qPushed : Queue Nat :=
  ⟨[⟨⟨none, some 1⟩, true⟩, ⟨⟨some 0, none⟩, true⟩], some 0, some 1⟩

/-- The concrete state reached by `Queue::new()`, `push(0)`, `pop()`: the old
sentinel at cell 0 is retired (dead), cell 1 is the new sentinel, and the
queue is empty again. -/
def qDrained : Queue Nat :=
  ⟨[⟨⟨none, some 1⟩, false⟩, ⟨⟨none, none⟩, true⟩], some 1, some 1⟩

/-!
## Concurrent two-lock semantics

The tail lock serializes pushes and the head lock serializes pops, so at any
instant at most one push and at most one pop are in flight; a push and a pop
may interleave freely.  The machine below interleaves one producer and one
consumer at the granularity of the source's individual shared-memory
accesses.  Writes are field-granular, as in Rust: `take()` touches only
`value`, `(**tail).next = new_node` touches only `next`, dropping the
`Box` only deallocates.
-/

/-- Producer control point inside `push` (the tail lock is held from the read
of `*tail` until after the tail advance). -/
inductive PushPC (α : Type)
  | idle
  | allocated (a : Nat) (v : α)
  | gotTail (a : Nat) (v : α) (t : Nat)
  | linked (a : Nat) (v : α)
deriving Repr, DecidableEq

/-- Consumer control point inside `pop` (the head lock is held from the read
of `*head` until the final head update or the empty return). -/
inductive PopPC (α : Type)
  | idle
  | gotHead (h : Nat)
  | gotNext (h n : Nat)
  | took (h n : Nat) (v : α)
  | freed (h n : Nat) (v : α)
  | reread (h n : Nat) (v : α) (nx : Option Nat)
deriving Repr, DecidableEq

/-- Whole-system state: the shared queue, the two thread control points, the
values whose push has completed (in tail-lock acquisition order) and the
values returned by completed pops (in head-lock order). -/
structure Sys (α : Type) where
  q : Queue α
  pu : PushPC α
  po : PopPC α
  pushed : List α
  popped : List α
deriving Repr, DecidableEq

/-- Initial system: a fresh queue, both threads idle. -/
def Sys.init (α : Type) : Sys α :=
  ⟨Queue.new, .idle, .idle, [], []⟩

/-- One interleaved micro-step of the two threads.  Producer steps follow
`push` line by line: allocate the node, read `*tail`, write `(**tail).next`,
write `*tail` (completing the push).  Consumer steps follow `pop`: read
`*head`, read `(**head).next` (returning empty if null), `take().unwrap()`
the successor's payload, drop `Box::from_raw(*head)`, re-read
`(**head).next`, write `*head` (completing the pop).  A `take` whose payload
is absent would be a panic: no step exists and that thread is stuck.
`Step` models a *non-reusing* allocator: `pushStart` always allocates a
fresh address, so a freed cell is never recycled; `StepR` below extends it
with allocator reuse, which is what the source's use-after-free in `pop`
is exposed to. -/
inductive Step {α : Type} : Sys α → Sys α → Prop
  | pushStart (s : Sys α) (v : α) (h : s.pu = .idle) :
      Step s { s with
        q := { s.q with mem := s.q.mem ++ [⟨⟨some v, none⟩, true⟩] },
        pu := .allocated s.q.mem.length v }
  | pushReadTail (s : Sys α) (a : Nat) (v : α) (t : Nat)
      (h : s.pu = .allocated a v) (ht : s.q.tail = some t) :
      Step s { s with pu := .gotTail a v t }
  | pushLink (s : Sys α) (a : Nat) (v : α) (t : Nat) (tc : Cell α)
      (h : s.pu = .gotTail a v t) (htc : s.q.mem[t]? = some tc) :
      Step s { s with
        q := { s.q with mem := s.q.mem.set t ⟨⟨tc.node.value, some a⟩, tc.live⟩ },
        pu := .linked a v }
  | pushAdvanceTail (s : Sys α) (a : Nat) (v : α) (h : s.pu = .linked a v) :
      Step s { s with
        q := { s.q with tail := some a },
        pu := .idle,
        pushed := s.pushed ++ [v] }
  | popReadHead (s : Sys α) (hh : Nat) (h : s.po = .idle)
      (hq : s.q.head = some hh) :
      Step s { s with po := .gotHead hh }
  | popReadNextNone (s : Sys α) (hh : Nat) (hc : Cell α)
      (h : s.po = .gotHead hh) (hm : s.q.mem[hh]? = some hc)
      (hn : hc.node.next = none) :
      Step s { s with po := .idle }
  | popReadNextSome (s : Sys α) (hh n : Nat) (hc : Cell α)
      (h : s.po = .gotHead hh) (hm : s.q.mem[hh]? = some hc)
      (hn : hc.node.next = some n) :
      Step s { s with po := .gotNext hh n }
  | popTake (s : Sys α) (hh n : Nat) (sc : Cell α) (v : α)
      (h : s.po = .gotNext hh n) (hm : s.q.mem[n]? = some sc)
      (hv : sc.node.value = some v) :
      Step s { s with
        q := { s.q with mem := s.q.mem.set n ⟨⟨none, sc.node.next⟩, sc.live⟩ },
        po := .took hh n v }
  | popFree (s : Sys α) (hh n : Nat) (v : α) (h : s.po = .took hh n v) :
      Step s { s with
        q := { s.q with mem := memFree s.q.mem hh },
        po := .freed hh n v }
  | popRereadNext (s : Sys α) (hh n : Nat) (v : α) (hc₂ : Cell α)
      (h : s.po = .freed hh n v) (hm : s.q.mem[hh]? = some hc₂) :
      Step s { s with po := .reread hh n v hc₂.node.next }
  | popSetHead (s : Sys α) (hh n : Nat) (v : α) (nx : Option Nat)
      (h : s.po = .reread hh n v nx) :
      Step s { s with
        q := { s.q with head := nx },
        po := .idle,
        popped := s.popped ++ [v] }

/-- System states reachable from the initial state by interleaved steps of
the non-reusing-allocator machine. -/
inductive SysReach {α : Type} : Sys α → Prop
  | init : SysReach (Sys.init α)
  | step {s s' : Sys α} : SysReach s → Step s s' → SysReach s'

/-- The same interleaved machine over a *reusing* allocator: in addition to
every `Step`, the producer's `Node::new` — which runs before the tail lock
is taken (`tlqueue.rs:60`) — may be handed any currently deallocated cell
back by the allocator, as real allocators do.  The reused cell is
reinitialised to `Node { value: Some v, next: null }` and the local
`new_node` pointer is its (old) address. -/
inductive StepR {α : Type} : Sys α → Sys α → Prop
  | base {s s' : Sys α} : Step s s' → StepR s s'
  | pushStartReuse (s : Sys α) (v : α) (d : Nat) (c : Cell α)
      (h : s.pu = .idle) (hm : s.q.mem[d]? = some c) (hdead : c.live = false) :
      StepR s { s with
        q := { s.q with mem := s.q.mem.set d ⟨⟨some v, none⟩, true⟩ },
        pu := .allocated d v }

/-- System states reachable when the allocator may recycle freed cells. -/
inductive SysReachR {α : Type} : Sys α → Prop
  | init : SysReachR (Sys.init α)
  | step {s s' : Sys α} : SysReachR s → StepR s s' → SysReachR s'

/-- Index of the last node linked into the chain of a heap with `L` cells:
`L-2` while the producer has allocated but not yet linked its node, `L-1`
otherwise. -/
def PushPC.lastLinked {α : Type} : PushPC α → Nat → Nat
  | .allocated _ _, L => L - 2
  | .gotTail _ _ _, L => L - 2
  | _, L => L - 1

/-- The cell the tail reference addresses: stale at `L-2` from allocation
until the producer's final tail advance. -/
def PushPC.tailTarget {α : Type} : PushPC α → Nat → Nat
  | .idle, L => L - 1
  | _, L => L - 2

/-- Cells up to this index (inclusive) hold no payload: the consumer's
`take()` empties the successor cell `H+1` before head advances. -/
def PopPC.noneBound {α : Type} : PopPC α → Nat → Nat
  | .took _ _ _, H => H + 1
  | .freed _ _ _, H => H + 1
  | .reread _ _ _ _, H => H + 1
  | _, H => H

/-- Cells strictly below this index are deallocated: the consumer frees the
old sentinel `H` before head advances. -/
def PopPC.liveBound {α : Type} : PopPC α → Nat → Nat
  | .freed _ _ _, H => H + 1
  | .reread _ _ _ _, H => H + 1
  | _, H => H

/-- Invariant of the interleaved system, relative to the sentinel address `H`
and the ghost list `allvals` of all values whose push has started, in order:
cell `i+1` was allocated for `allvals[i]` and the chain, liveness, payload,
bookkeeping and thread-local views are all consistent. -/
structure SysInvAt {α : Type} (s : Sys α) (H : Nat) (allvals : List α) : Prop where
  head_eq : s.q.head = some H
  len_eq : allvals.length + 1 = s.q.mem.length
  h_le : H ≤ s.pu.lastLinked s.q.mem.length
  tail_eq : s.q.tail = some (s.pu.tailTarget s.q.mem.length)
  next_eq : ∀ i c, s.q.mem[i]? = some c →
    c.node.next = if i < s.pu.lastLinked s.q.mem.length then some (i + 1) else none
  live_iff : ∀ i c, s.q.mem[i]? = some c →
    (c.live = true ↔ s.po.liveBound H ≤ i)
  value_eq : ∀ i c, s.q.mem[i]? = some c →
    c.node.value = if s.po.noneBound H < i then allvals[i - 1]? else none
  pu_ok : match s.pu with
    | .idle => s.pushed = allvals
    | .allocated a v => a + 1 = s.q.mem.length ∧ allvals[a - 1]? = some v ∧
        s.pushed = allvals.take (a - 1) ∧ 1 ≤ a
    | .gotTail a v t => a + 1 = s.q.mem.length ∧ allvals[a - 1]? = some v ∧
        s.pushed = allvals.take (a - 1) ∧ 1 ≤ a ∧ t + 1 = a
    | .linked a v => a + 1 = s.q.mem.length ∧ allvals[a - 1]? = some v ∧
        s.pushed = allvals.take (a - 1) ∧ 1 ≤ a
  po_ok : match s.po with
    | .idle => True
    | .gotHead h => h = H
    | .gotNext h n => h = H ∧ n = H + 1 ∧ H < s.pu.lastLinked s.q.mem.length
    | .took h n v => h = H ∧ n = H + 1 ∧ H < s.pu.lastLinked s.q.mem.length ∧
        allvals[H]? = some v
    | .freed h n v => h = H ∧ n = H + 1 ∧ H < s.pu.lastLinked s.q.mem.length ∧
        allvals[H]? = some v
    | .reread h n v nx => h = H ∧ n = H + 1 ∧ H < s.pu.lastLinked s.q.mem.length ∧
        allvals[H]? = some v ∧ nx = some (H + 1)
  popped_eq : s.popped = allvals.take H

/-- Invariant with the sentinel address and ghost value list abstracted. -/
def SysInv {α : Type} (s : Sys α) : Prop := ∃ H allvals, SysInvAt s H allvals

/-- Final state of the concrete interleaved run used as a test vector:
push 5 runs to completion, then pop 5 runs to completion. -/
def sysFinal : Sys Nat :=
  ⟨qDrained, .idle, .idle, [5], [5]⟩

/-- Final state of the corrupting run under a reusing allocator: 5 is pushed
and being popped; between the pop's `Box::from_raw` free of the old sentinel
(cell 0) and its re-read of `(**head).next`, a concurrent `push 7` is handed
the freed cell 0 for its new node.  The re-read then returns the reused
node's null `next`, so the pop writes `head := null`.  The second push
completes normally (cell 1's `next` links to cell 0, tail advances), leaving
7 linked but unreachable: `head` is null, every further `pop` dereferences a
null pointer, and the pushed values `[5, 7]` can never all be popped. -/
def sCorrupt : Sys Nat :=
  ⟨⟨[⟨⟨some 7, none⟩, true⟩, ⟨⟨none, some 0⟩, true⟩], none, some 0⟩,
   .idle, .idle, [5, 7], [5]⟩

/-! ## Basic heap lemmas -/

theorem getElem_append_lt {α : Type} {l₁ l₂ : List α} {i : Nat} (h : i < l₁.length) :
    (l₁ ++ l₂)[i]? = l₁[i]? := by
  rw [List.getElem?_append]
  simp [h]

theorem memFree_length {α : Type} (mem : List (Cell α)) (a : Nat) :
    (memFree mem a).length = mem.length := by
  unfold memFree
  cases h : mem[a]? <;> simp [List.length_set]

theorem getElem_memFree_ne {α : Type} {mem : List (Cell α)} {a i : Nat} (h : a ≠ i) :
    (memFree mem a)[i]? = mem[i]? := by
  unfold memFree
  cases hm : mem[a]? with
  | none => rfl
  | some c => exact List.getElem?_set_ne h

theorem getElem_memFree_self {α : Type} {mem : List (Cell α)} {a : Nat} {c : Cell α}
    (h : mem[a]? = some c) : (memFree mem a)[a]? = some ⟨c.node, false⟩ := by
  unfold memFree
  rw [h]
  have ha : a < mem.length := (List.getElem?_eq_some.mp h).1
  rw [List.getElem?_set]
  simp [ha]

namespace Queue

/-! ## The invariant holds initially and is preserved by push and pop -/

theorem new_wfat {α : Type} : (new : Queue α).WFat 0 [] := by
  constructor
  · rfl
  · rfl
  · exact Nat.zero_lt_one
  · rfl
  · intro i c hic
    have hi : i < 1 := by simpa [new] using (List.getElem?_eq_some.mp hic).1
    have hi0 : i = 0 := by omega
    subst hi0
    simp only [new, List.getElem?_cons_zero, Option.some.injEq] at hic
    subst hic
    rfl
  · intro i c hic
    have hi : i < 1 := by simpa [new] using (List.getElem?_eq_some.mp hic).1
    have hi0 : i = 0 := by omega
    subst hi0
    simp only [new, List.getElem?_cons_zero, Option.some.injEq] at hic
    subst hic
    simp
  · intro i c hic _
    have hi : i < 1 := by simpa [new] using (List.getElem?_eq_some.mp hic).1
    have hi0 : i = 0 := by omega
    subst hi0
    simp only [new, List.getElem?_cons_zero, Option.some.injEq] at hic
    subst hic
    rfl
  · intro i c hic hgt
    have hi : i < 1 := by simpa [new] using (List.getElem?_eq_some.mp hic).1
    omega

theorem push_spec {α : Type} {q : Queue α} {h : Nat} {vs : List α}
    (w : q.WFat h vs) (v : α) :
    ∃ q', q.push v = some q' ∧ q'.WFat h (vs ++ [v]) ∧ q'.head = q.head ∧
      q'.mem.length = q.mem.length + 1 := by
  obtain ⟨hhead, htail, hlt, hlen, hnext, hlive, hdead, hval⟩ := w
  have hL : 0 < q.mem.length := Nat.lt_of_le_of_lt (Nat.zero_le h) hlt
  have htlt : q.mem.length - 1 < q.mem.length := by omega
  obtain ⟨tc, htc⟩ : ∃ tc, q.mem[q.mem.length - 1]? = some tc :=
    ⟨_, List.getElem?_eq_getElem htlt⟩
  set L := q.mem.length with hLdef
  set uc : Cell α := ⟨⟨tc.node.value, some L⟩, tc.live⟩ with huc
  set nc : Cell α := ⟨⟨some v, none⟩, true⟩ with hnc
  set mem' := (q.mem ++ [nc]).set (L - 1) uc with hmemdef
  have hlen' : mem'.length = L + 1 := by
    simp [hmemdef, List.length_set]
  have hlook : ∀ k, mem'[k]? = if k = L - 1 then some uc
      else if k = L then some nc else q.mem[k]? := by
    intro k
    rw [hmemdef, List.getElem?_set]
    by_cases h1 : L - 1 = k
    · have hklt : L - 1 < (q.mem ++ [nc]).length := by
        simp
        omega
      rw [if_pos h1, if_pos (h1 ▸ hklt), if_pos h1.symm]
    · rw [if_neg h1, if_neg (fun h2 => h1 h2.symm), List.getElem?_append]
      by_cases h2 : k = L
      · subst h2
        simp
      · rw [if_neg h2]
        by_cases h3 : k < L
        · simp [h3]
        · rw [if_neg h3]
          rw [List.getElem?_eq_none (show ([nc] : List (Cell α)).length ≤ k - L by
            simp; omega)]
          rw [List.getElem?_eq_none (show q.mem.length ≤ k by omega)]
  refine ⟨⟨mem', q.head, some L⟩, ?_, ?_, rfl, hlen'⟩
  · unfold push Node.new
    rw [htail]
    simp only [Option.bind_eq_bind, Option.some_bind]
    rw [getElem_append_lt htlt, htc]
    simp only [Option.some_bind]
    rfl
  · constructor
    · exact hhead
    · show some L = some (mem'.length - 1)
      rw [hlen']
      simp
    · show h < mem'.length
      rw [hlen']
      omega
    · show (vs ++ [v]).length = mem'.length - (h + 1)
      rw [hlen']
      simp [hlen]
      omega
    · intro i c hic
      show c.node.next = if i + 1 = mem'.length then none else some (i + 1)
      rw [hlen']
      rw [hlook i] at hic
      by_cases h1 : i = L - 1
      · subst h1
        rw [if_pos rfl] at hic
        injection hic with h2
        subst h2
        rw [if_neg (by omega)]
        show some L = some (L - 1 + 1)
        congr 1
        omega
      · rw [if_neg h1] at hic
        by_cases h2 : i = L
        · subst h2
          rw [if_pos rfl] at hic
          injection hic with h3
          subst h3
          rw [if_pos rfl]
        · rw [if_neg h2] at hic
          have hi : i < L := (List.getElem?_eq_some.mp hic).1
          have hold := hnext i c hic
          rw [if_neg (by omega)] at hold
          rw [hold, if_neg (by omega)]
    · intro i c hic
      rw [hlook i] at hic
      by_cases h1 : i = L - 1
      · subst h1
        rw [if_pos rfl] at hic
        injection hic with h2
        subst h2
        exact hlive (L - 1) tc htc
      · rw [if_neg h1] at hic
        by_cases h2 : i = L
        · subst h2
          rw [if_pos rfl] at hic
          injection hic with h3
          subst h3
          simp
          omega
        · rw [if_neg h2] at hic
          exact hlive i c hic
    · intro i c hic hile
      rw [hlook i] at hic
      by_cases h1 : i = L - 1
      · subst h1
        rw [if_pos rfl] at hic
        injection hic with h2
        subst h2
        exact hdead (L - 1) tc htc hile
      · rw [if_neg h1] at hic
        by_cases h2 : i = L
        · subst h2
          omega
        · rw [if_neg h2] at hic
          exact hdead i c hic hile
    · intro i c hic hgt
      rw [hlook i] at hic
      by_cases h1 : i = L - 1
      · subst h1
        rw [if_pos rfl] at hic
        injection hic with h2
        subst h2
        show tc.node.value = (vs ++ [v])[L - 1 - (h + 1)]?
        rw [hval (L - 1) tc htc hgt]
        exact (getElem_append_lt (by omega)).symm
      · rw [if_neg h1] at hic
        by_cases h2 : i = L
        · subst h2
          rw [if_pos rfl] at hic
          injection hic with h3
          subst h3
          show some v = (vs ++ [v])[L - (h + 1)]?
          rw [show L - (h + 1) = vs.length by omega]
          exact (List.getElem?_concat_length vs v).symm
        · rw [if_neg h2] at hic
          have hi : i < L := (List.getElem?_eq_some.mp hic).1
          rw [hval i c hic hgt]
          exact (getElem_append_lt (by omega)).symm

end Queue

namespace Queue

theorem pop_spec_nil {α : Type} {q : Queue α} {h : Nat} (w : q.WFat h []) :
    q.pop = some (none, q) := by
  obtain ⟨hhead, htail, hlt, hlen, hnext, hlive, hdead, hval⟩ := w
  obtain ⟨hc, hhc⟩ : ∃ hc, q.mem[h]? = some hc := ⟨_, List.getElem?_eq_getElem hlt⟩
  have hnone : hc.node.next = none := by
    rw [hnext h hc hhc, if_pos ?_]
    simp at hlen
    omega
  unfold pop
  rw [hhead]
  simp only [Option.bind_eq_bind, Option.some_bind]
  rw [hhc]
  simp only [Option.some_bind]
  rw [hnone]
  rfl

theorem pop_spec_cons {α : Type} {q : Queue α} {h : Nat} {v : α} {vs : List α}
    (w : q.WFat h (v :: vs)) :
    ∃ q', q.pop = some (some v, q') ∧ q'.WFat (h + 1) vs ∧ q'.tail = q.tail ∧
      q'.mem.length = q.mem.length ∧ q'.head = some (h + 1) := by
  obtain ⟨hhead, htail, hlt, hlen, hnext, hlive, hdead, hval⟩ := w
  have hh1 : h + 1 < q.mem.length := by
    simp only [List.length_cons] at hlen
    omega
  obtain ⟨hc, hhc⟩ : ∃ hc, q.mem[h]? = some hc := ⟨_, List.getElem?_eq_getElem hlt⟩
  obtain ⟨sc, hsc⟩ : ∃ sc, q.mem[h + 1]? = some sc := ⟨_, List.getElem?_eq_getElem hh1⟩
  have hcnext : hc.node.next = some (h + 1) := by
    rw [hnext h hc hhc, if_neg (by omega)]
  have hscval : sc.node.value = some v := by
    rw [hval (h + 1) sc hsc (by omega)]
    simp
  set mem₁ := q.mem.set (h + 1) ⟨⟨none, sc.node.next⟩, sc.live⟩ with hm1
  have hm1h : mem₁[h]? = some hc := by
    rw [hm1, List.getElem?_set_ne (by omega)]
    exact hhc
  set mem₂ := memFree mem₁ h with hm2
  have hm2h : mem₂[h]? = some ⟨hc.node, false⟩ := getElem_memFree_self hm1h
  have hlen₂ : mem₂.length = q.mem.length := by
    rw [hm2, memFree_length, hm1, List.length_set]
  have hlook : ∀ k, mem₂[k]? = if k = h then some ⟨hc.node, false⟩
      else if k = h + 1 then some ⟨⟨none, sc.node.next⟩, sc.live⟩ else q.mem[k]? := by
    intro k
    by_cases h1 : k = h
    · subst h1
      rw [if_pos rfl]
      exact hm2h
    · rw [if_neg h1, hm2, getElem_memFree_ne (fun h2 => h1 h2.symm), hm1]
      by_cases h2 : k = h + 1
      · subst h2
        rw [List.getElem?_set]
        simp [hh1]
      · rw [List.getElem?_set, if_neg (fun h3 => h2 h3.symm), if_neg h2]
  refine ⟨⟨mem₂, some (h + 1), q.tail⟩, ?_, ?_, rfl, hlen₂, rfl⟩
  · unfold pop
    rw [hhead]
    simp only [Option.bind_eq_bind, Option.some_bind]
    rw [hhc]
    simp only [Option.some_bind]
    rw [hcnext]
    simp only [hsc, Option.some_bind, hscval]
    rw [← hm1, ← hm2, hm2h]
    simp only [Option.some_bind]
    rw [hcnext]
    rfl
  · constructor
    · rfl
    · show q.tail = some (mem₂.length - 1)
      rw [hlen₂]
      exact htail
    · show h + 1 < mem₂.length
      rw [hlen₂]
      exact hh1
    · show vs.length = mem₂.length - (h + 1 + 1)
      rw [hlen₂]
      simp only [List.length_cons] at hlen
      omega
    · intro k c hic
      show c.node.next = if k + 1 = mem₂.length then none else some (k + 1)
      rw [hlen₂]
      rw [hlook k] at hic
      by_cases h1 : k = h
      · subst h1
        rw [if_pos rfl] at hic
        injection hic with h2
        subst h2
        show hc.node.next = _
        rw [hcnext, if_neg (by omega)]
      · rw [if_neg h1] at hic
        by_cases h2 : k = h + 1
        · subst h2
          rw [if_pos rfl] at hic
          injection hic with h3
          subst h3
          show sc.node.next = _
          exact hnext (h + 1) sc hsc
        · rw [if_neg h2] at hic
          exact hnext k c hic
    · intro k c hic
      rw [hlook k] at hic
      by_cases h1 : k = h
      · have h1' : h = k := h1.symm
        subst h1'
        rw [if_pos rfl] at hic
        injection hic with h2
        subst h2
        show false = true ↔ h + 1 ≤ h
        refine iff_of_false ?_ ?_
        · simp
        · omega
      · rw [if_neg h1] at hic
        by_cases h2 : k = h + 1
        · subst h2
          rw [if_pos rfl] at hic
          injection hic with h3
          subst h3
          show sc.live = true ↔ h + 1 ≤ h + 1
          rw [(hlive (h + 1) sc hsc)]
          omega
        · rw [if_neg h2] at hic
          rw [hlive k c hic]
          omega
    · intro k c hic hle
      rw [hlook k] at hic
      by_cases h1 : k = h
      · have h1' : h = k := h1.symm
        subst h1'
        rw [if_pos rfl] at hic
        injection hic with h2
        subst h2
        exact hdead h hc hhc (by omega)
      · rw [if_neg h1] at hic
        by_cases h2 : k = h + 1
        · subst h2
          rw [if_pos rfl] at hic
          injection hic with h3
          subst h3
          rfl
        · rw [if_neg h2] at hic
          exact hdead k c hic (by omega)
    · intro k c hic hgt
      rw [hlook k] at hic
      rw [if_neg (by omega), if_neg (by omega)] at hic
      have := hval k c hic (by omega)
      rw [show k - (h + 1) = (k - (h + 1 + 1)) + 1 by omega, List.getElem?_cons_succ] at this
      exact this

end Queue

namespace Queue

/-! ## Reachable states are well formed; derived operation lemmas -/

theorem reachable_wf {α : Type} {q : Queue α} (hr : Reachable q) : q.WF := by
  induction hr with
  | new => exact ⟨0, [], new_wfat⟩
  | push hq hps ih =>
    obtain ⟨h, vs, w⟩ := ih
    obtain ⟨q'', heq, w', _, _⟩ := push_spec w _
    rw [hps] at heq
    injection heq with heq
    subst heq
    exact ⟨h, _, w'⟩
  | pop hq hps ih =>
    obtain ⟨h, vs, w⟩ := ih
    cases vs with
    | nil =>
      have hthis := pop_spec_nil w
      rw [hps] at hthis
      injection hthis with hp
      injection hp with h1 h2
      rw [h2]
      exact ⟨h, [], w⟩
    | cons v vs =>
      obtain ⟨q'', heq, w', _, _, _⟩ := pop_spec_cons w
      rw [hps] at heq
      injection heq with hp
      injection hp with h1 h2
      rw [h2]
      exact ⟨h + 1, vs, w'⟩

theorem map_value_drop {α : Type} {q : Queue α} {h : Nat} {vs : List α}
    (w : q.WFat h vs) :
    (q.mem.drop (h + 1)).map (fun c => c.node.value) = vs.map some := by
  obtain ⟨hhead, htail, hlt, hlen, hnext, hlive, hdead, hval⟩ := w
  apply List.ext_getElem?
  intro k
  rw [List.getElem?_map, List.getElem?_drop, List.getElem?_map]
  by_cases hk : h + 1 + k < q.mem.length
  · obtain ⟨c, hc⟩ : ∃ c, q.mem[h + 1 + k]? = some c := ⟨_, List.getElem?_eq_getElem hk⟩
    rw [hc]
    have hv := hval (h + 1 + k) c hc (by omega)
    rw [show h + 1 + k - (h + 1) = k by omega] at hv
    have hklen : k < vs.length := by omega
    obtain ⟨a, ha⟩ : ∃ a, vs[k]? = some a := ⟨_, List.getElem?_eq_getElem hklen⟩
    rw [ha] at hv
    rw [ha]
    simp [hv]
  · rw [List.getElem?_eq_none (show q.mem.length ≤ h + 1 + k by omega)]
    rw [List.getElem?_eq_none (show vs.length ≤ k by omega)]
    rfl

theorem filterMap_of_map_some {α β : Type} {l : List β} {f : β → Option α} {vs : List α}
    (h : l.map f = vs.map some) : l.filterMap f = vs := by
  induction l generalizing vs with
  | nil =>
    cases vs with
    | nil => rfl
    | cons v vs => simp at h
  | cons b l ih =>
    cases vs with
    | nil => simp at h
    | cons v vs =>
      simp only [List.map_cons, List.cons.injEq] at h
      obtain ⟨h1, h2⟩ := h
      simp only [List.filterMap_cons, h1, ih h2]

theorem toList_eq {α : Type} {q : Queue α} {h : Nat} {vs : List α} (w : q.WFat h vs) :
    q.toList = vs := by
  unfold toList
  rw [w.head_eq]
  exact filterMap_of_map_some (map_value_drop w)

theorem popN_spec {α : Type} {q : Queue α} {h : Nat} {vs : List α} (w : q.WFat h vs) :
    ∃ q', q.popN vs.length = some (vs.map some, q') ∧ q'.WFat (h + vs.length) [] := by
  induction vs generalizing q h with
  | nil => exact ⟨q, rfl, w⟩
  | cons v vs ih =>
    obtain ⟨q₁, hpop, w₁, _, _, _⟩ := pop_spec_cons w
    obtain ⟨q', hN, w'⟩ := ih w₁
    refine ⟨q', ?_, ?_⟩
    · show q.popN (vs.length + 1) = _
      unfold popN
      rw [hpop]
      simp only [Option.bind_eq_bind, Option.some_bind]
      rw [hN]
      simp only [Option.some_bind]
      rfl
    · simp only [List.length_cons]
      rw [show h + (vs.length + 1) = h + 1 + vs.length by omega]
      exact w'

theorem pushAll_spec {α : Type} {q : Queue α} {h : Nat} {vs : List α} (w : q.WFat h vs)
    (ws : List α) :
    ∃ q', pushAll q ws = some q' ∧ q'.WFat h (vs ++ ws) := by
  induction ws generalizing q vs with
  | nil => exact ⟨q, rfl, by simpa using w⟩
  | cons a ws ih =>
    obtain ⟨q₁, hp, w₁, _, _⟩ := push_spec w a
    obtain ⟨q', hA, w'⟩ := ih w₁
    refine ⟨q', ?_, ?_⟩
    · unfold pushAll
      rw [hp]
      simp only [Option.bind_eq_bind, Option.some_bind]
      exact hA
    · simpa [List.append_assoc] using w'

theorem drainAux_spec {α : Type} {fuel : Nat} {q : Queue α} {h : Nat} {vs : List α}
    (w : q.WFat h vs) (hfuel : vs.length < fuel) :
    drainAux fuel q = some vs := by
  induction fuel generalizing q h vs with
  | zero => omega
  | succ n ih =>
    cases vs with
    | nil =>
      unfold drainAux
      rw [pop_spec_nil w]
      rfl
    | cons v vs =>
      obtain ⟨q₁, hpop, w₁, _, _, _⟩ := pop_spec_cons w
      unfold drainAux
      rw [hpop]
      simp only [Option.bind_eq_bind, Option.some_bind]
      rw [ih w₁ (by simp only [List.length_cons] at hfuel; omega)]
      simp only [Option.some_bind]
      rfl

theorem drain_spec {α : Type} {q : Queue α} {h : Nat} {vs : List α} (w : q.WFat h vs) :
    q.drain = some vs := by
  unfold drain
  refine drainAux_spec w ?_
  have h1 := w.len_vals
  have h2 := w.h_lt
  omega

theorem popN_nil {α : Type} {q : Queue α} {h : Nat} (w : q.WFat h []) (k : Nat) :
    q.popN k = some (List.replicate k none, q) := by
  induction k with
  | zero => rfl
  | succ n ih =>
    unfold popN
    rw [pop_spec_nil w]
    simp only [Option.bind_eq_bind, Option.some_bind]
    rw [ih]
    simp only [Option.some_bind]
    rfl

theorem wfat_chain {α : Type} {q : Queue α} {h : Nat} {vs : List α} (w : q.WFat h vs) :
    ∀ n a, q.mem.length = a + n + 1 → Chain q.mem a (List.range' a (n + 1)) := by
  intro n
  induction n with
  | zero =>
    intro a hLa
    obtain ⟨c, hc⟩ : ∃ c, q.mem[a]? = some c := ⟨_, List.getElem?_eq_getElem (by omega)⟩
    have hnone : c.node.next = none := by
      rw [w.next_eq a c hc, if_pos (by omega)]
    exact Chain.last hc hnone
  | succ n ih =>
    intro a hLa
    obtain ⟨c, hc⟩ : ∃ c, q.mem[a]? = some c := ⟨_, List.getElem?_eq_getElem (by omega)⟩
    have hnx : c.node.next = some (a + 1) := by
      rw [w.next_eq a c hc, if_neg (by omega)]
    have hrest := ih (a + 1) (by omega)
    rw [List.range'_succ]
    exact Chain.cons hc hnx hrest

end Queue

/-! ## Claim theorems -/

theorem reachable_qPushed : Reachable qPushed :=
  @Reachable.push Nat Queue.new qPushed 0 Reachable.new rfl

theorem reachable_qDrained : Reachable qDrained :=
  @Reachable.pop Nat qPushed qDrained (some 0) reachable_qPushed rfl

/-- C1: for every finite sequence of values pushed sequentially into a
freshly constructed queue, calling pop the same number of times returns
exactly those values, in push order. -/
theorem c1_fifo_order {α : Type} (vs : List α) :
    ∃ q q', Queue.pushAll Queue.new vs = some q ∧
      q.popN vs.length = some (vs.map some, q') := by
  obtain ⟨q, hA, w⟩ := Queue.pushAll_spec Queue.new_wfat vs
  rw [List.nil_append] at w
  obtain ⟨q', hN, _⟩ := Queue.popN_spec w
  exact ⟨q, q', hA, hN⟩

/-- C7: the first pop on a freshly constructed queue returns the empty
optional result — a normal `some none` outcome, not a panic/error (`none` in
the model) — and leaves the queue unchanged. -/
theorem c7_empty_on_start {α : Type} :
    (Queue.new : Queue α).pop = some (none, Queue.new) :=
  Queue.pop_spec_nil Queue.new_wfat

/-- C8: on every reachable empty queue, any number of repeated pops each
return the empty result and leave the state (heap, head and tail) completely
unchanged. -/
theorem c8_idempotent_empty {α : Type} {q : Queue α} (hr : Reachable q)
    (he : q.toList = []) (k : Nat) :
    q.popN k = some (List.replicate k none, q) := by
  obtain ⟨h, vs, w⟩ := Queue.reachable_wf hr
  have hnil : vs = [] := (Queue.toList_eq w).symm.trans he
  subst hnil
  exact Queue.popN_nil w k

/-- Witness for c8_idempotent_empty at the drained concrete state. -/
theorem c8_idempotent_empty_witness :
    Queue.popN qDrained 2 = some (List.replicate 2 none, qDrained) :=
  c8_idempotent_empty reachable_qDrained rfl 2

/-- C6: pushing one value onto any reachable queue that has been drained to
empty and then popping returns exactly that value. -/
theorem c6_drain_refill {α : Type} {q : Queue α} (hr : Reachable q)
    (he : q.toList = []) (v : α) :
    ∃ q₁ q₂, q.push v = some q₁ ∧ q₁.pop = some (some v, q₂) := by
  obtain ⟨h, vs, w⟩ := Queue.reachable_wf hr
  have hnil : vs = [] := (Queue.toList_eq w).symm.trans he
  subst hnil
  obtain ⟨q₁, hp, w₁, _, _⟩ := Queue.push_spec w v
  rw [List.nil_append] at w₁
  obtain ⟨q₂, hpop, _, _, _, _⟩ := Queue.pop_spec_cons w₁
  exact ⟨q₁, q₂, hp, hpop⟩

/-- Witness for c6_drain_refill at the drained concrete state. -/
theorem c6_drain_refill_witness :
    ∃ q₁ q₂, Queue.push qDrained 7 = some q₁ ∧ Queue.pop q₁ = some (some 7, q₂) :=
  c6_drain_refill reachable_qDrained rfl 7

/-- C5: bulk construction (`from_iter`) is the same computation as `new`
followed by pushing each value in order, and building from `vs` then
draining returns exactly `vs`. -/
theorem c5_from_iter_roundtrip {α : Type} (vs : List α) :
    Queue.fromIter vs = Queue.pushAll Queue.new vs ∧
    ∃ q, Queue.fromIter vs = some q ∧ q.drain = some vs := by
  refine ⟨rfl, ?_⟩
  obtain ⟨q, hA, w⟩ := Queue.pushAll_spec Queue.new_wfat vs
  rw [List.nil_append] at w
  exact ⟨q, hA, Queue.drain_spec w⟩

/-- C9: in every reachable state, whenever the sentinel node has a successor,
that successor's payload is present; hence the `unwrap` in pop succeeds and
pop returns normally. -/
theorem c9_unwrap_never_fails {α : Type} {q : Queue α} (hr : Reachable q) :
    ∀ h hc n, q.head = some h → q.mem[h]? = some hc → hc.node.next = some n →
      ∃ sc v q', q.mem[n]? = some sc ∧ sc.node.value = some v ∧
        q.pop = some (some v, q') := by
  obtain ⟨h₀, vs, w⟩ := Queue.reachable_wf hr
  intro h hc n hh hhc hnext
  have hh0 : h₀ = h := by
    rw [w.head_eq] at hh
    injection hh
  subst hh0
  have hnn := w.next_eq h₀ hc hhc
  by_cases hend : h₀ + 1 = q.mem.length
  · rw [hnn, if_pos hend] at hnext
    cases hnext
  · rw [hnn, if_neg hend] at hnext
    injection hnext with hn1
    subst hn1
    cases vs with
    | nil =>
      have hlen := w.len_vals
      simp only [List.length_nil] at hlen
      have hlt := w.h_lt
      omega
    | cons v vs =>
      obtain ⟨q', hpop, _, _, _, _⟩ := Queue.pop_spec_cons w
      have hlt := w.h_lt
      obtain ⟨sc, hsc⟩ : ∃ sc, q.mem[h₀ + 1]? = some sc :=
        ⟨_, List.getElem?_eq_getElem (by omega)⟩
      refine ⟨sc, v, q', hsc, ?_, hpop⟩
      rw [w.value_at (h₀ + 1) sc hsc (by omega)]
      simp
  
/-- Witness for c9_unwrap_never_fails at the one-element concrete state. -/
theorem c9_unwrap_never_fails_witness :
    ∃ sc v q', qPushed.mem[1]? = some sc ∧ sc.node.value = some v ∧
      qPushed.pop = some (some v, q') :=
  c9_unwrap_never_fails reachable_qPushed 0 ⟨⟨none, some 1⟩, true⟩ 1 rfl rfl rfl

/-- Supporting lemma: the use-after-free read in pop fires on every well-formed
nonempty queue, not just the concrete test vector. -/
theorem popReadsRetired_of_nonempty {α : Type} {q : Queue α} {h : Nat} {v : α}
    {vs : List α} (w : q.WFat h (v :: vs)) : Queue.popReadsRetired q = true := by
  obtain ⟨hhead, htail, hlt, hlen, hnext, hlive, hdead, hval⟩ := w
  have hh1 : h + 1 < q.mem.length := by
    simp only [List.length_cons] at hlen
    omega
  obtain ⟨hc, hhc⟩ : ∃ hc, q.mem[h]? = some hc := ⟨_, List.getElem?_eq_getElem hlt⟩
  obtain ⟨sc, hsc⟩ : ∃ sc, q.mem[h + 1]? = some sc := ⟨_, List.getElem?_eq_getElem hh1⟩
  have hcnext : hc.node.next = some (h + 1) := by
    rw [hnext h hc hhc, if_neg (by omega)]
  have hscval : sc.node.value = some v := by
    rw [hval (h + 1) sc hsc (by omega)]
    simp
  have hm1h : (q.mem.set (h + 1) ⟨⟨none, sc.node.next⟩, sc.live⟩)[h]? = some hc := by
    rw [List.getElem?_set_ne (by omega)]
    exact hhc
  simp only [Queue.popReadsRetired, hhead, hhc, hcnext, hsc, hscval,
    getElem_memFree_self hm1h, Bool.not_false]

/-- C3 is violated by the code: popping the reachable one-element state
`qPushed` frees the old sentinel (cell 0) with `Box::from_raw` and only
afterwards executes `*head = (**head).next`, reading the `next` field of the
node it has already deallocated.  `popReadsRetired` reports this
use-after-free; the run nevertheless completes and returns the queued value
because the model's allocator never reuses addresses. -/
theorem c3_pop_reads_freed_sentinel :
    Queue.popReadsRetired qPushed = true ∧
    qPushed.pop = some (some 0, qDrained) ∧
    (Queue.new : Queue Nat).push 0 = some qPushed :=
  ⟨rfl, rfl, rfl⟩

/-- C2: every state reachable from new() satisfies the structural invariant:
following next links from head traverses a chain ending at tail, tail's next
is the null pointer, the head node is the sentinel with absent payload, the
nodes strictly after it up to tail hold exactly the queued payloads in FIFO
order, every chain node is a live allocation, and on an empty queue head and
tail reference the same node. -/
theorem c2_reachable_invariant {α : Type} {q : Queue α} (hr : Reachable q) :
    ∃ h t addrs, q.head = some h ∧ q.tail = some t ∧
      Chain q.mem h addrs ∧ addrs.head? = some h ∧ addrs.getLast? = some t ∧
      (∀ c, q.mem[t]? = some c → c.node.next = none) ∧
      (∀ c, q.mem[h]? = some c → c.node.value = none) ∧
      addrs.tail.map (fun a => (q.mem[a]?).bind (fun c => c.node.value)) =
        q.toList.map some ∧
      (∀ a ∈ addrs, ∃ c, q.mem[a]? = some c ∧ c.live = true) ∧
      (q.toList = [] → h = t) := by
  obtain ⟨h, vs, w⟩ := Queue.reachable_wf hr
  have hlt := w.h_lt
  have hlen := w.len_vals
  refine ⟨h, q.mem.length - 1, List.range' h (q.mem.length - h), w.head_eq,
    w.tail_eq, ?_, ?_, ?_, ?_, ?_, ?_, ?_, ?_⟩
  · have hch := Queue.wfat_chain w (q.mem.length - h - 1) h (by omega)
    rwa [show q.mem.length - h - 1 + 1 = q.mem.length - h by omega] at hch
  · rw [show q.mem.length - h = (q.mem.length - h - 1) + 1 by omega, List.range'_succ]
    rfl
  · rw [show q.mem.length - h = (q.mem.length - h - 1) + 1 by omega, List.range'_concat,
      List.getLast?_concat]
    congr 1
    simp only [one_mul]
    omega
  · intro c hc
    rw [w.next_eq _ c hc, if_pos (by omega)]
  · intro c hc
    exact w.value_dead h c hc (le_refl h)
  · rw [Queue.toList_eq w]
    rw [show q.mem.length - h = (q.mem.length - h - 1) + 1 by omega, List.range'_succ]
    show (List.range' (h + 1) (q.mem.length - h - 1)).map _ = vs.map some
    apply List.ext_getElem?
    intro k
    rw [List.getElem?_map, List.getElem?_map]
    by_cases hk : k < q.mem.length - h - 1
    · rw [List.getElem?_range' _ _ hk]
      simp only [one_mul]
      obtain ⟨c, hc⟩ : ∃ c, q.mem[h + 1 + k]? = some c :=
        ⟨_, List.getElem?_eq_getElem (by omega)⟩
      have hv := w.value_at (h + 1 + k) c hc (by omega)
      rw [show h + 1 + k - (h + 1) = k by omega] at hv
      obtain ⟨a, ha⟩ : ∃ a, vs[k]? = some a :=
        ⟨_, List.getElem?_eq_getElem (by omega)⟩
      rw [ha] at hv
      rw [ha]
      simp [hc, hv]
    · rw [List.getElem?_eq_none
        (show (List.range' (h + 1) (q.mem.length - h - 1)).length ≤ k by
          rw [List.length_range']
          omega)]
      rw [List.getElem?_eq_none (show vs.length ≤ k by omega)]
      rfl
  · intro a ha
    have hmem := List.mem_range'_1.mp ha
    obtain ⟨c, hc⟩ : ∃ c, q.mem[a]? = some c :=
      ⟨_, List.getElem?_eq_getElem (by omega)⟩
    exact ⟨c, hc, (w.live_iff a c hc).mpr (by omega)⟩
  · intro he
    have hvs : vs = [] := (Queue.toList_eq w).symm.trans he
    subst hvs
    simp only [List.length_nil] at hlen
    omega

/-- Witness for c2_reachable_invariant at the concrete state qPushed. -/
theorem c2_reachable_invariant_witness :
    ∃ h t addrs, qPushed.head = some h ∧ qPushed.tail = some t ∧
      Chain qPushed.mem h addrs ∧ addrs.head? = some h ∧ addrs.getLast? = some t ∧
      (∀ c, qPushed.mem[t]? = some c → c.node.next = none) ∧
      (∀ c, qPushed.mem[h]? = some c → c.node.value = none) ∧
      addrs.tail.map (fun a => (qPushed.mem[a]?).bind (fun c => c.node.value)) =
        qPushed.toList.map some ∧
      (∀ a ∈ addrs, ∃ c, qPushed.mem[a]? = some c ∧ c.live = true) ∧
      (qPushed.toList = [] → h = t) :=
  c2_reachable_invariant reachable_qPushed

/-- C10: push never reads or modifies the head reference (its result carries
any head value through unchanged), pop never modifies the tail reference, and
popping the last remaining element leaves tail referencing the node that
became the new sentinel. -/
theorem c10_frame_conditions :
    (∀ (α : Type) (q : Queue α) (hd : Option Nat) (v : α),
        Queue.push ⟨q.mem, hd, q.tail⟩ v =
          (Queue.push q v).map (fun p => ⟨p.mem, hd, p.tail⟩)) ∧
    (∀ (α : Type) (q q₂ : Queue α) (r : Option α),
        q.pop = some (r, q₂) → q₂.tail = q.tail) ∧
    (∀ (α : Type) (q q₂ : Queue α) (x : α), Reachable q → q.toList = [x] →
        q.pop = some (some x, q₂) → q₂.head = q.tail) := by
  refine ⟨?_, ?_, ?_⟩
  · intro α q hd v
    obtain ⟨mem, hd₀, tl⟩ := q
    unfold Queue.push Node.new
    cases tl with
    | none => rfl
    | some t =>
      simp only [Option.bind_eq_bind, Option.some_bind]
      cases hx : (mem ++ [⟨⟨some v, none⟩, true⟩] : List (Cell α))[t]? with
      | none => rfl
      | some tc => rfl
  · intro α q q₂ r hpop
    unfold Queue.pop at hpop
    cases hh : q.head with
    | none =>
      rw [hh] at hpop
      cases hpop
    | some h =>
      rw [hh] at hpop
      simp only [Option.bind_eq_bind, Option.some_bind] at hpop
      cases hc : q.mem[h]? with
      | none =>
        rw [hc] at hpop
        cases hpop
      | some hcell =>
        rw [hc] at hpop
        simp only [Option.some_bind] at hpop
        cases hn : hcell.node.next with
        | none =>
          rw [hn] at hpop
          injection hpop with hp
          injection hp with h1 h2
          rw [← h2]
        | some n =>
          rw [hn] at hpop
          simp only [Option.bind_eq_bind] at hpop
          cases hs : q.mem[n]? with
          | none =>
            rw [hs] at hpop
            cases hpop
          | some sc =>
            rw [hs] at hpop
            simp only [Option.some_bind] at hpop
            cases hv : sc.node.value with
            | none =>
              rw [hv] at hpop
              cases hpop
            | some v =>
              rw [hv] at hpop
              simp only [Option.some_bind] at hpop
              cases hc2 : (memFree (q.mem.set n ⟨⟨none, sc.node.next⟩, sc.live⟩) h)[h]? with
              | none =>
                rw [hc2] at hpop
                cases hpop
              | some hcell₂ =>
                rw [hc2] at hpop
                injection hpop with hp
                injection hp with h1 h2
                rw [← h2]
  · intro α q q₂ x hr he hpop
    obtain ⟨h, vs, winv⟩ := Queue.reachable_wf hr
    have hvs : vs = [x] := (Queue.toList_eq winv).symm.trans he
    subst hvs
    obtain ⟨q₂', hpop', w₂, htl, hlenq, hhd⟩ := Queue.pop_spec_cons winv
    rw [hpop] at hpop'
    injection hpop' with hp
    injection hp with h1 h2
    subst h2
    rw [hhd, winv.tail_eq]
    have hlen := winv.len_vals
    simp only [List.length_cons, List.length_nil] at hlen
    have hlt := winv.h_lt
    congr 1
    omega

/-- Witness for c10_frame_conditions: popping the one-element state qPushed
keeps tail unchanged, and afterwards head coincides with the former tail. -/
theorem c10_frame_conditions_witness :
    qDrained.tail = qPushed.tail ∧ qDrained.head = qPushed.tail :=
  ⟨c10_frame_conditions.2.1 Nat qPushed qDrained (some 0) rfl,
   c10_frame_conditions.2.2 Nat qPushed qDrained 0 reachable_qPushed rfl rfl⟩

/-! ## Invariant of the interleaved system -/

theorem noneBound_le {α : Type} (po : PopPC α) (H : Nat) : po.noneBound H ≤ H + 1 := by
  cases po <;> simp only [PopPC.noneBound] <;> omega

theorem le_noneBound {α : Type} (po : PopPC α) (H : Nat) : H ≤ po.noneBound H := by
  cases po <;> simp only [PopPC.noneBound] <;> omega

theorem liveBound_le {α : Type} (po : PopPC α) (H : Nat) : po.liveBound H ≤ H + 1 := by
  cases po <;> simp only [PopPC.liveBound] <;> omega

theorem le_liveBound {α : Type} (po : PopPC α) (H : Nat) : H ≤ po.liveBound H := by
  cases po <;> simp only [PopPC.liveBound] <;> omega

theorem sysInv_init {α : Type} : SysInvAt (Sys.init α) 0 [] := by
  refine ⟨rfl, rfl, Nat.le_refl 0, rfl, ?_, ?_, ?_, rfl, trivial, rfl⟩
  · intro i c hic
    have hi : i < 1 := by
      simpa [Sys.init, Queue.new] using (List.getElem?_eq_some.mp hic).1
    have hi0 : i = 0 := by omega
    subst hi0
    simp only [Sys.init, Queue.new, List.getElem?_cons_zero, Option.some.injEq] at hic
    subst hic
    simp [Sys.init, Queue.new, PushPC.lastLinked]
  · intro i c hic
    have hi : i < 1 := by
      simpa [Sys.init, Queue.new] using (List.getElem?_eq_some.mp hic).1
    have hi0 : i = 0 := by omega
    subst hi0
    simp only [Sys.init, Queue.new, List.getElem?_cons_zero, Option.some.injEq] at hic
    subst hic
    simp [Sys.init, PopPC.liveBound]
  · intro i c hic
    have hi : i < 1 := by
      simpa [Sys.init, Queue.new] using (List.getElem?_eq_some.mp hic).1
    have hi0 : i = 0 := by omega
    subst hi0
    simp only [Sys.init, Queue.new, List.getElem?_cons_zero, Option.some.injEq] at hic
    subst hic
    simp [Sys.init, PopPC.noneBound]

theorem sysInv_pushReadTail {α : Type} {mem : List (Cell α)} {hd tl : Option Nat}
    {po : PopPC α} {pushedL poppedL : List α} {H : Nat} {allvals : List α}
    {a : Nat} {v : α} {t : Nat}
    (inv : SysInvAt ⟨⟨mem, hd, tl⟩, .allocated a v, po, pushedL, poppedL⟩ H allvals)
    (ht : tl = some t) :
    SysInvAt ⟨⟨mem, hd, tl⟩, .gotTail a v t, po, pushedL, poppedL⟩ H allvals := by
  obtain ⟨hhead, hlen, hle, htail, hnext, hlive, hval, hpu, hpo, hpop⟩ := inv
  dsimp only at hhead hlen hle htail hnext hlive hval hpu hpo hpop
  obtain ⟨ha1, ha2, ha3, ha4⟩ := hpu
  have htt : t = mem.length - 2 := by
    have h0 := ht.symm.trans htail
    injection h0
  exact ⟨hhead, hlen, hle, htail, hnext, hlive, hval,
    ⟨ha1, ha2, ha3, ha4, by omega⟩, hpo, hpop⟩

theorem sysInv_popReadHead {α : Type} {mem : List (Cell α)} {hd tl : Option Nat}
    {pu : PushPC α} {pushedL poppedL : List α} {H : Nat} {allvals : List α}
    {hh : Nat}
    (inv : SysInvAt ⟨⟨mem, hd, tl⟩, pu, .idle, pushedL, poppedL⟩ H allvals)
    (hq : hd = some hh) :
    SysInvAt ⟨⟨mem, hd, tl⟩, pu, .gotHead hh, pushedL, poppedL⟩ H allvals := by
  obtain ⟨hhead, hlen, hle, htail, hnext, hlive, hval, hpu, hpo, hpop⟩ := inv
  dsimp only at hhead hlen hle htail hnext hlive hval hpu hpo hpop
  have hhH : hh = H := by
    have h0 := hq.symm.trans hhead
    injection h0
  exact ⟨hhead, hlen, hle, htail, hnext, hlive, hval, hpu, hhH, hpop⟩

theorem sysInv_popReadNextNone {α : Type} {mem : List (Cell α)} {hd tl : Option Nat}
    {pu : PushPC α} {pushedL poppedL : List α} {H : Nat} {allvals : List α}
    {hh : Nat}
    (inv : SysInvAt ⟨⟨mem, hd, tl⟩, pu, .gotHead hh, pushedL, poppedL⟩ H allvals) :
    SysInvAt ⟨⟨mem, hd, tl⟩, pu, .idle, pushedL, poppedL⟩ H allvals := by
  obtain ⟨hhead, hlen, hle, htail, hnext, hlive, hval, hpu, hpo, hpop⟩ := inv
  exact ⟨hhead, hlen, hle, htail, hnext, hlive, hval, hpu, trivial, hpop⟩

theorem sysInv_popReadNextSome {α : Type} {mem : List (Cell α)} {hd tl : Option Nat}
    {pu : PushPC α} {pushedL poppedL : List α} {H : Nat} {allvals : List α}
    {hh n : Nat} {hc : Cell α}
    (inv : SysInvAt ⟨⟨mem, hd, tl⟩, pu, .gotHead hh, pushedL, poppedL⟩ H allvals)
    (hm : mem[hh]? = some hc) (hn : hc.node.next = some n) :
    SysInvAt ⟨⟨mem, hd, tl⟩, pu, .gotNext hh n, pushedL, poppedL⟩ H allvals := by
  obtain ⟨hhead, hlen, hle, htail, hnext, hlive, hval, hpu, hpo, hpop⟩ := inv
  dsimp only at hhead hlen hle htail hnext hlive hval hpu hpo hpop
  subst hpo
  have hx := hnext hh hc hm
  by_cases hcase : hh < PushPC.lastLinked pu mem.length
  · rw [if_pos hcase] at hx
    rw [hx] at hn
    injection hn with hn1
    exact ⟨hhead, hlen, hle, htail, hnext, hlive, hval, hpu,
      ⟨rfl, hn1.symm, hcase⟩, hpop⟩
  · rw [if_neg hcase] at hx
    rw [hx] at hn
    cases hn

theorem sysInv_popRereadNext {α : Type} {mem : List (Cell α)} {hd tl : Option Nat}
    {pu : PushPC α} {pushedL poppedL : List α} {H : Nat} {allvals : List α}
    {hh n : Nat} {v : α} {hc₂ : Cell α}
    (inv : SysInvAt ⟨⟨mem, hd, tl⟩, pu, .freed hh n v, pushedL, poppedL⟩ H allvals)
    (hm : mem[hh]? = some hc₂) :
    SysInvAt ⟨⟨mem, hd, tl⟩, pu, .reread hh n v hc₂.node.next, pushedL, poppedL⟩
      H allvals := by
  obtain ⟨hhead, hlen, hle, htail, hnext, hlive, hval, hpu, hpo, hpop⟩ := inv
  dsimp only at hhead hlen hle htail hnext hlive hval hpu hpo hpop
  obtain ⟨h1, h2, h3, h4⟩ := hpo
  subst h1
  have hx := hnext hh hc₂ hm
  rw [if_pos h3] at hx
  exact ⟨hhead, hlen, hle, htail, hnext, hlive, hval, hpu, ⟨rfl, h2, h3, h4, hx⟩, hpop⟩

theorem sysInv_popSetHead {α : Type} {mem : List (Cell α)} {hd tl : Option Nat}
    {pu : PushPC α} {pushedL poppedL : List α} {H : Nat} {allvals : List α}
    {hh n : Nat} {v : α} {nx : Option Nat}
    (inv : SysInvAt ⟨⟨mem, hd, tl⟩, pu, .reread hh n v nx, pushedL, poppedL⟩ H allvals) :
    SysInvAt ⟨⟨mem, nx, tl⟩, pu, .idle, pushedL, poppedL ++ [v]⟩ (H + 1) allvals := by
  obtain ⟨hhead, hlen, hle, htail, hnext, hlive, hval, hpu, hpo, hpop⟩ := inv
  dsimp only at hhead hlen hle htail hnext hlive hval hpu hpo hpop
  obtain ⟨h1, h2, h3, h4, h5⟩ := hpo
  subst h1
  refine ⟨h5, hlen, h3, htail, hnext, hlive, hval, hpu, trivial, ?_⟩
  show poppedL ++ [v] = allvals.take (hh + 1)
  rw [hpop, List.take_succ, h4]
  rfl

theorem sysInv_pushAdvanceTail {α : Type} {mem : List (Cell α)} {hd tl : Option Nat}
    {po : PopPC α} {pushedL poppedL : List α} {H : Nat} {allvals : List α}
    {a : Nat} {v : α}
    (inv : SysInvAt ⟨⟨mem, hd, tl⟩, .linked a v, po, pushedL, poppedL⟩ H allvals) :
    SysInvAt ⟨⟨mem, hd, some a⟩, .idle, po, pushedL ++ [v], poppedL⟩ H allvals := by
  obtain ⟨hhead, hlen, hle, htail, hnext, hlive, hval, hpu, hpo, hpop⟩ := inv
  dsimp only at hhead hlen hle htail hnext hlive hval hpu hpo hpop
  obtain ⟨ha1, ha2, ha3, ha4⟩ := hpu
  refine ⟨hhead, hlen, hle, ?_, hnext, hlive, hval, ?_, hpo, hpop⟩
  · show some a = some (PushPC.tailTarget (.idle : PushPC α) mem.length)
    have hτ : PushPC.tailTarget (.idle : PushPC α) mem.length = mem.length - 1 := rfl
    rw [hτ]
    congr 1
    omega
  · show pushedL ++ [v] = allvals
    have hav : a = allvals.length := by omega
    calc pushedL ++ [v]
        = allvals.take (a - 1) ++ (allvals[a - 1]?).toList := by rw [ha3, ha2]; rfl
      _ = allvals.take (a - 1 + 1) := List.take_succ.symm
      _ = allvals := by rw [show a - 1 + 1 = a by omega, hav, List.take_length]

theorem lastLinked_idle {α : Type} (L : Nat) :
    (PushPC.idle : PushPC α).lastLinked L = L - 1 := rfl

theorem lastLinked_allocated {α : Type} (a : Nat) (v : α) (L : Nat) :
    (PushPC.allocated a v).lastLinked L = L - 2 := rfl

theorem lastLinked_gotTail {α : Type} (a : Nat) (v : α) (t L : Nat) :
    (PushPC.gotTail a v t).lastLinked L = L - 2 := rfl

theorem lastLinked_linked {α : Type} (a : Nat) (v : α) (L : Nat) :
    (PushPC.linked a v).lastLinked L = L - 1 := rfl

theorem sysInv_pushStart {α : Type} {mem : List (Cell α)} {hd tl : Option Nat}
    {po : PopPC α} {pushedL poppedL : List α} {H : Nat} {allvals : List α} (v : α)
    (inv : SysInvAt ⟨⟨mem, hd, tl⟩, .idle, po, pushedL, poppedL⟩ H allvals) :
    SysInvAt ⟨⟨mem ++ [⟨⟨some v, none⟩, true⟩], hd, tl⟩, .allocated mem.length v,
      po, pushedL, poppedL⟩ H (allvals ++ [v]) := by
  obtain ⟨hhead, hlen, hle, htail, hnext, hlive, hval, hpu, hpo, hpop⟩ := inv
  dsimp only at hhead hlen hle htail hnext hlive hval hpu hpo hpop
  have hle' : H ≤ mem.length - 1 := hle
  have htail' : tl = some (mem.length - 1) := htail
  have hnext' : ∀ i c, mem[i]? = some c →
      c.node.next = if i < mem.length - 1 then some (i + 1) else none := hnext
  have hlook : ∀ k, (mem ++ [(⟨⟨some v, none⟩, true⟩ : Cell α)])[k]? =
      if k = mem.length then some ⟨⟨some v, none⟩, true⟩ else mem[k]? := by
    intro k
    rw [List.getElem?_append]
    by_cases h2 : k = mem.length
    · subst h2
      simp
    · rw [if_neg h2]
      by_cases h3 : k < mem.length
      · simp [h3]
      · rw [if_neg h3]
        rw [List.getElem?_eq_none
          (show ([(⟨⟨some v, none⟩, true⟩ : Cell α)]).length ≤ k - mem.length by
            rw [List.length_singleton]; omega)]
        rw [List.getElem?_eq_none (show mem.length ≤ k by omega)]
  have hnb : po.noneBound H < mem.length := by
    have hub := noneBound_le po H
    cases po with
    | idle => have h0 : (PopPC.idle : PopPC α).noneBound H = H := rfl; omega
    | gotHead h =>
      have h0 : (PopPC.gotHead h : PopPC α).noneBound H = H := rfl
      omega
    | gotNext h n =>
      obtain ⟨h1, h2, h3⟩ := hpo
      have h3' : H < mem.length - 1 := h3
      omega
    | took h n w =>
      obtain ⟨h1, h2, h3, h4⟩ := hpo
      have h3' : H < mem.length - 1 := h3
      omega
    | freed h n w =>
      obtain ⟨h1, h2, h3, h4⟩ := hpo
      have h3' : H < mem.length - 1 := h3
      omega
    | reread h n w nx =>
      obtain ⟨h1, h2, h3, h4, h5⟩ := hpo
      have h3' : H < mem.length - 1 := h3
      omega
  refine ⟨hhead, ?_, ?_, ?_, ?_, ?_, ?_, ?_, ?_, ?_⟩
  · dsimp only
    rw [List.length_append, List.length_append, List.length_singleton,
      List.length_singleton]
    omega
  · dsimp only
    rw [lastLinked_allocated, List.length_append, List.length_singleton]
    omega
  · dsimp only
    rw [htail']
    have hτ : (PushPC.allocated mem.length v).tailTarget
        (mem ++ [(⟨⟨some v, none⟩, true⟩ : Cell α)]).length =
        (mem ++ [(⟨⟨some v, none⟩, true⟩ : Cell α)]).length - 2 := rfl
    rw [hτ, List.length_append, List.length_singleton,
      show mem.length + 1 - 2 = mem.length - 1 by omega]
  · intro i c hic
    dsimp only at hic ⊢
    rw [hlook i] at hic
    rw [lastLinked_allocated, List.length_append, List.length_singleton]
    by_cases h2 : i = mem.length
    · subst h2
      rw [if_pos rfl] at hic
      injection hic with h3
      subst h3
      rw [if_neg (by omega)]
    · rw [if_neg h2] at hic
      have hi : i < mem.length := (List.getElem?_eq_some.mp hic).1
      have hx := hnext' i c hic
      by_cases h3 : i < mem.length - 1
      · rw [if_pos h3] at hx
        rw [hx, if_pos (by omega)]
      · rw [if_neg h3] at hx
        rw [hx, if_neg (by omega)]
  · intro i c hic
    dsimp only at hic ⊢
    rw [hlook i] at hic
    by_cases h2 : i = mem.length
    · subst h2
      rw [if_pos rfl] at hic
      injection hic with h3
      subst h3
      have hlb := liveBound_le po H
      refine iff_of_true rfl ?_
      omega
    · rw [if_neg h2] at hic
      exact hlive i c hic
  · intro i c hic
    dsimp only at hic ⊢
    rw [hlook i] at hic
    by_cases h2 : i = mem.length
    · subst h2
      rw [if_pos rfl] at hic
      injection hic with h3
      subst h3
      rw [if_pos hnb]
      show some v = (allvals ++ [v])[mem.length - 1]?
      rw [show mem.length - 1 = allvals.length by omega]
      exact (List.getElem?_concat_length allvals v).symm
    · rw [if_neg h2] at hic
      have hi : i < mem.length := (List.getElem?_eq_some.mp hic).1
      have hx := hval i c hic
      by_cases h3 : po.noneBound H < i
      · rw [if_pos h3] at hx
        rw [hx, if_pos h3]
        exact (getElem_append_lt (by omega)).symm
      · rw [if_neg h3] at hx
        rw [hx, if_neg h3]
  · dsimp only
    refine ⟨?_, ?_, ?_, ?_⟩
    · rw [List.length_append, List.length_singleton]
    · show (allvals ++ [v])[mem.length - 1]? = some v
      rw [show mem.length - 1 = allvals.length by omega]
      exact List.getElem?_concat_length allvals v
    · show pushedL = (allvals ++ [v]).take (mem.length - 1)
      rw [List.take_append_of_le_length (by omega),
        show mem.length - 1 = allvals.length by omega, List.take_length]
      exact hpu
    · omega
  · dsimp only
    cases po with
    | idle => trivial
    | gotHead h => exact hpo
    | gotNext h n =>
      obtain ⟨h1, h2, h3⟩ := hpo
      have h3' : H < mem.length - 1 := h3
      refine ⟨h1, h2, ?_⟩
      rw [lastLinked_allocated, List.length_append, List.length_singleton]
      omega
    | took h n w =>
      obtain ⟨h1, h2, h3, h4⟩ := hpo
      have h3' : H < mem.length - 1 := h3
      refine ⟨h1, h2, ?_, ?_⟩
      · rw [lastLinked_allocated, List.length_append, List.length_singleton]
        omega
      · rw [getElem_append_lt (by omega)]
        exact h4
    | freed h n w =>
      obtain ⟨h1, h2, h3, h4⟩ := hpo
      have h3' : H < mem.length - 1 := h3
      refine ⟨h1, h2, ?_, ?_⟩
      · rw [lastLinked_allocated, List.length_append, List.length_singleton]
        omega
      · rw [getElem_append_lt (by omega)]
        exact h4
    | reread h n w nx =>
      obtain ⟨h1, h2, h3, h4, h5⟩ := hpo
      have h3' : H < mem.length - 1 := h3
      refine ⟨h1, h2, ?_, ?_, h5⟩
      · rw [lastLinked_allocated, List.length_append, List.length_singleton]
        omega
      · rw [getElem_append_lt (by omega)]
        exact h4
  · dsimp only
    rw [List.take_append_of_le_length (by omega)]
    exact hpop

theorem lastLinked_le {α : Type} (pu : PushPC α) (L : Nat) :
    pu.lastLinked L ≤ L - 1 := by
  cases pu <;> simp only [PushPC.lastLinked] <;> omega

theorem sysInv_pushLink {α : Type} {mem : List (Cell α)} {hd tl : Option Nat}
    {po : PopPC α} {pushedL poppedL : List α} {H : Nat} {allvals : List α}
    {a : Nat} {v : α} {t : Nat} {tc : Cell α}
    (inv : SysInvAt ⟨⟨mem, hd, tl⟩, .gotTail a v t, po, pushedL, poppedL⟩ H allvals)
    (htc : mem[t]? = some tc) :
    SysInvAt ⟨⟨mem.set t ⟨⟨tc.node.value, some a⟩, tc.live⟩, hd, tl⟩,
      .linked a v, po, pushedL, poppedL⟩ H allvals := by
  obtain ⟨hhead, hlen, hle, htail, hnext, hlive, hval, hpu, hpo, hpop⟩ := inv
  dsimp only at hhead hlen hle htail hnext hlive hval hpu hpo hpop
  obtain ⟨ha1, ha2, ha3, ha4, ha5⟩ := hpu
  have hle' : H ≤ mem.length - 2 := hle
  have htail' : tl = some (mem.length - 2) := htail
  have hnext' : ∀ i c, mem[i]? = some c →
      c.node.next = if i < mem.length - 2 then some (i + 1) else none := hnext
  have ht_lt : t < mem.length := by omega
  have hlook : ∀ k, (mem.set t ⟨⟨tc.node.value, some a⟩, tc.live⟩)[k]? =
      if k = t then some ⟨⟨tc.node.value, some a⟩, tc.live⟩ else mem[k]? := by
    intro k
    rw [List.getElem?_set]
    by_cases h2 : t = k
    · rw [if_pos h2, if_pos (h2 ▸ ht_lt), if_pos h2.symm]
    · rw [if_neg h2, if_neg (fun h3 => h2 h3.symm)]
  refine ⟨hhead, ?_, ?_, ?_, ?_, ?_, ?_, ?_, ?_, hpop⟩
  · dsimp only
    rw [List.length_set]
    exact hlen
  · dsimp only
    rw [lastLinked_linked, List.length_set]
    omega
  · dsimp only
    rw [htail']
    have hτ : (PushPC.linked a v).tailTarget
        (mem.set t ⟨⟨tc.node.value, some a⟩, tc.live⟩).length =
        (mem.set t ⟨⟨tc.node.value, some a⟩, tc.live⟩).length - 2 := rfl
    rw [hτ, List.length_set]
  · intro i c hic
    dsimp only at hic ⊢
    rw [hlook i] at hic
    rw [lastLinked_linked, List.length_set]
    by_cases h2 : i = t
    · subst h2
      rw [if_pos rfl] at hic
      injection hic with h3
      subst h3
      rw [if_pos (by omega)]
      show some a = some (i + 1)
      rw [show i + 1 = a from ha5]
    · rw [if_neg h2] at hic
      have hx := hnext' i c hic
      by_cases h3 : i < mem.length - 2
      · rw [if_pos h3] at hx
        rw [hx, if_pos (by omega)]
      · rw [if_neg h3] at hx
        rw [hx, if_neg (by omega)]
  · intro i c hic
    dsimp only at hic ⊢
    rw [hlook i] at hic
    by_cases h2 : i = t
    · subst h2
      rw [if_pos rfl] at hic
      injection hic with h3
      subst h3
      exact hlive i tc htc
    · rw [if_neg h2] at hic
      exact hlive i c hic
  · intro i c hic
    dsimp only at hic ⊢
    rw [hlook i] at hic
    by_cases h2 : i = t
    · subst h2
      rw [if_pos rfl] at hic
      injection hic with h3
      subst h3
      exact hval i tc htc
    · rw [if_neg h2] at hic
      exact hval i c hic
  · dsimp only
    refine ⟨?_, ha2, ha3, ha4⟩
    rw [List.length_set]
    exact ha1
  · dsimp only
    cases po with
    | idle => trivial
    | gotHead h => exact hpo
    | gotNext h n =>
      obtain ⟨h1, h2, h3⟩ := hpo
      have h3' : H < mem.length - 2 := h3
      refine ⟨h1, h2, ?_⟩
      rw [lastLinked_linked, List.length_set]
      omega
    | took h n w =>
      obtain ⟨h1, h2, h3, h4⟩ := hpo
      have h3' : H < mem.length - 2 := h3
      refine ⟨h1, h2, ?_, h4⟩
      rw [lastLinked_linked, List.length_set]
      omega
    | freed h n w =>
      obtain ⟨h1, h2, h3, h4⟩ := hpo
      have h3' : H < mem.length - 2 := h3
      refine ⟨h1, h2, ?_, h4⟩
      rw [lastLinked_linked, List.length_set]
      omega
    | reread h n w nx =>
      obtain ⟨h1, h2, h3, h4, h5⟩ := hpo
      have h3' : H < mem.length - 2 := h3
      refine ⟨h1, h2, ?_, h4, h5⟩
      rw [lastLinked_linked, List.length_set]
      omega

theorem sysInv_popTake {α : Type} {mem : List (Cell α)} {hd tl : Option Nat}
    {pu : PushPC α} {pushedL poppedL : List α} {H : Nat} {allvals : List α}
    {hh n : Nat} {sc : Cell α} {v : α}
    (inv : SysInvAt ⟨⟨mem, hd, tl⟩, pu, .gotNext hh n, pushedL, poppedL⟩ H allvals)
    (hm : mem[n]? = some sc) (hv : sc.node.value = some v) :
    SysInvAt ⟨⟨mem.set n ⟨⟨none, sc.node.next⟩, sc.live⟩, hd, tl⟩, pu,
      .took hh n v, pushedL, poppedL⟩ H allvals := by
  obtain ⟨hhead, hlen, hle, htail, hnext, hlive, hval, hpu, hpo, hpop⟩ := inv
  dsimp only at hhead hlen hle htail hnext hlive hval hpu hpo hpop
  obtain ⟨h1, h2, h3⟩ := hpo
  subst h1
  subst h2
  have hlast := lastLinked_le pu mem.length
  have hn_lt : hh + 1 < mem.length := by omega
  have hvx : sc.node.value =
      if hh < hh + 1 then allvals[hh + 1 - 1]? else none := hval (hh + 1) sc hm
  rw [if_pos (by omega), show hh + 1 - 1 = hh by omega] at hvx
  have h4' : allvals[hh]? = some v := by
    rw [← hvx, hv]
  have hlook : ∀ k, (mem.set (hh + 1) ⟨⟨none, sc.node.next⟩, sc.live⟩)[k]? =
      if k = hh + 1 then some ⟨⟨none, sc.node.next⟩, sc.live⟩ else mem[k]? := by
    intro k
    rw [List.getElem?_set]
    by_cases h2 : hh + 1 = k
    · rw [if_pos h2, if_pos (h2 ▸ hn_lt), if_pos h2.symm]
    · rw [if_neg h2, if_neg (fun h3x => h2 h3x.symm)]
  refine ⟨hhead, ?_, ?_, ?_, ?_, ?_, ?_, ?_, ?_, hpop⟩
  · dsimp only
    rw [List.length_set]
    exact hlen
  · dsimp only
    rw [List.length_set]
    exact Nat.le_of_lt h3
  · dsimp only
    rw [List.length_set]
    exact htail
  · intro i c hic
    dsimp only at hic ⊢
    rw [hlook i] at hic
    rw [List.length_set]
    by_cases h2 : i = hh + 1
    · subst h2
      rw [if_pos rfl] at hic
      injection hic with h3x
      subst h3x
      exact hnext (hh + 1) sc hm
    · rw [if_neg h2] at hic
      exact hnext i c hic
  · intro i c hic
    dsimp only at hic ⊢
    rw [hlook i] at hic
    show c.live = true ↔ hh ≤ i
    by_cases h2 : i = hh + 1
    · subst h2
      rw [if_pos rfl] at hic
      injection hic with h3x
      subst h3x
      exact hlive (hh + 1) sc hm
    · rw [if_neg h2] at hic
      exact hlive i c hic
  · intro i c hic
    dsimp only at hic ⊢
    rw [hlook i] at hic
    show c.node.value = if hh + 1 < i then allvals[i - 1]? else none
    by_cases h2 : i = hh + 1
    · subst h2
      rw [if_pos rfl] at hic
      injection hic with h3x
      subst h3x
      rw [if_neg (by omega)]
    · rw [if_neg h2] at hic
      have hx : c.node.value = if hh < i then allvals[i - 1]? else none := hval i c hic
      by_cases h3x : hh + 1 < i
      · rw [if_pos (by omega)] at hx
        rw [hx, if_pos h3x]
      · rw [if_neg (by omega)] at hx
        rw [hx, if_neg h3x]
  · dsimp only
    cases pu with
    | idle => exact hpu
    | allocated a w =>
      obtain ⟨ha1, ha2, ha3, ha4⟩ := hpu
      refine ⟨?_, ha2, ha3, ha4⟩
      rw [List.length_set]
      exact ha1
    | gotTail a w t =>
      obtain ⟨ha1, ha2, ha3, ha4, ha5⟩ := hpu
      refine ⟨?_, ha2, ha3, ha4, ha5⟩
      rw [List.length_set]
      exact ha1
    | linked a w =>
      obtain ⟨ha1, ha2, ha3, ha4⟩ := hpu
      refine ⟨?_, ha2, ha3, ha4⟩
      rw [List.length_set]
      exact ha1
  · dsimp only
    refine ⟨rfl, rfl, ?_, h4'⟩
    rw [List.length_set]
    exact h3

theorem sysInv_popFree {α : Type} {mem : List (Cell α)} {hd tl : Option Nat}
    {pu : PushPC α} {pushedL poppedL : List α} {H : Nat} {allvals : List α}
    {hh n : Nat} {v : α}
    (inv : SysInvAt ⟨⟨mem, hd, tl⟩, pu, .took hh n v, pushedL, poppedL⟩ H allvals) :
    SysInvAt ⟨⟨memFree mem hh, hd, tl⟩, pu, .freed hh n v, pushedL, poppedL⟩
      H allvals := by
  obtain ⟨hhead, hlen, hle, htail, hnext, hlive, hval, hpu, hpo, hpop⟩ := inv
  dsimp only at hhead hlen hle htail hnext hlive hval hpu hpo hpop
  obtain ⟨h1, h2, h3, h4⟩ := hpo
  subst h1
  subst h2
  have hlast := lastLinked_le pu mem.length
  have hhlt : hh < mem.length := by omega
  obtain ⟨hc, hhc⟩ : ∃ hc, mem[hh]? = some hc := ⟨_, List.getElem?_eq_getElem hhlt⟩
  have hlook : ∀ k, (memFree mem hh)[k]? =
      if k = hh then some ⟨hc.node, false⟩ else mem[k]? := by
    intro k
    by_cases h2 : k = hh
    · subst h2
      rw [if_pos rfl]
      exact getElem_memFree_self hhc
    · rw [if_neg h2]
      exact getElem_memFree_ne (fun h3x => h2 h3x.symm)
  refine ⟨hhead, ?_, ?_, ?_, ?_, ?_, ?_, ?_, ?_, hpop⟩
  · dsimp only
    rw [memFree_length]
    exact hlen
  · dsimp only
    rw [memFree_length]
    exact Nat.le_of_lt h3
  · dsimp only
    rw [memFree_length]
    exact htail
  · intro i c hic
    dsimp only at hic ⊢
    rw [hlook i] at hic
    rw [memFree_length]
    by_cases h2 : i = hh
    · subst h2
      rw [if_pos rfl] at hic
      injection hic with h3x
      subst h3x
      exact hnext i hc hhc
    · rw [if_neg h2] at hic
      exact hnext i c hic
  · intro i c hic
    dsimp only at hic ⊢
    rw [hlook i] at hic
    show c.live = true ↔ hh + 1 ≤ i
    by_cases h2 : i = hh
    · subst h2
      rw [if_pos rfl] at hic
      injection hic with h3x
      subst h3x
      refine iff_of_false ?_ ?_
      · simp
      · omega
    · rw [if_neg h2] at hic
      have hx : c.live = true ↔ hh ≤ i := hlive i c hic
      rw [hx]
      omega
  · intro i c hic
    dsimp only at hic ⊢
    rw [hlook i] at hic
    show c.node.value = if hh + 1 < i then allvals[i - 1]? else none
    by_cases h2 : i = hh
    · subst h2
      rw [if_pos rfl] at hic
      injection hic with h3x
      subst h3x
      exact hval i hc hhc
    · rw [if_neg h2] at hic
      exact hval i c hic
  · dsimp only
    cases pu with
    | idle => exact hpu
    | allocated a w =>
      obtain ⟨ha1, ha2, ha3, ha4⟩ := hpu
      refine ⟨?_, ha2, ha3, ha4⟩
      rw [memFree_length]
      exact ha1
    | gotTail a w t =>
      obtain ⟨ha1, ha2, ha3, ha4, ha5⟩ := hpu
      refine ⟨?_, ha2, ha3, ha4, ha5⟩
      rw [memFree_length]
      exact ha1
    | linked a w =>
      obtain ⟨ha1, ha2, ha3, ha4⟩ := hpu
      refine ⟨?_, ha2, ha3, ha4⟩
      rw [memFree_length]
      exact ha1
  · dsimp only
    refine ⟨rfl, rfl, ?_, h4⟩
    rw [memFree_length]
    exact h3

theorem sysInv_step {α : Type} {s s' : Sys α} (hstep : Step s s') (hinv : SysInv s) :
    SysInv s' := by
  obtain ⟨H, allvals, inv⟩ := hinv
  cases hstep with
  | pushStart v hpu =>
    obtain ⟨⟨mem, hd, tl⟩, pu, po, pushedL, poppedL⟩ := s
    dsimp only at hpu
    subst hpu
    exact ⟨H, allvals ++ [v], sysInv_pushStart v inv⟩
  | pushReadTail a v t hpu ht =>
    obtain ⟨⟨mem, hd, tl⟩, pu, po, pushedL, poppedL⟩ := s
    dsimp only at hpu ht
    subst hpu
    exact ⟨H, allvals, sysInv_pushReadTail inv ht⟩
  | pushLink a v t tc hpu htc =>
    obtain ⟨⟨mem, hd, tl⟩, pu, po, pushedL, poppedL⟩ := s
    dsimp only at hpu htc
    subst hpu
    exact ⟨H, allvals, sysInv_pushLink inv htc⟩
  | pushAdvanceTail a v hpu =>
    obtain ⟨⟨mem, hd, tl⟩, pu, po, pushedL, poppedL⟩ := s
    dsimp only at hpu
    subst hpu
    exact ⟨H, allvals, sysInv_pushAdvanceTail inv⟩
  | popReadHead hh hpo hq =>
    obtain ⟨⟨mem, hd, tl⟩, pu, po, pushedL, poppedL⟩ := s
    dsimp only at hpo hq
    subst hpo
    exact ⟨H, allvals, sysInv_popReadHead inv hq⟩
  | popReadNextNone hh hc hpo hm hn =>
    obtain ⟨⟨mem, hd, tl⟩, pu, po, pushedL, poppedL⟩ := s
    dsimp only at hpo hm hn
    subst hpo
    exact ⟨H, allvals, sysInv_popReadNextNone inv⟩
  | popReadNextSome hh n hc hpo hm hn =>
    obtain ⟨⟨mem, hd, tl⟩, pu, po, pushedL, poppedL⟩ := s
    dsimp only at hpo hm hn
    subst hpo
    exact ⟨H, allvals, sysInv_popReadNextSome inv hm hn⟩
  | popTake hh n sc v hpo hm hv =>
    obtain ⟨⟨mem, hd, tl⟩, pu, po, pushedL, poppedL⟩ := s
    dsimp only at hpo hm hv
    subst hpo
    exact ⟨H, allvals, sysInv_popTake inv hm hv⟩
  | popFree hh n v hpo =>
    obtain ⟨⟨mem, hd, tl⟩, pu, po, pushedL, poppedL⟩ := s
    dsimp only at hpo
    subst hpo
    exact ⟨H, allvals, sysInv_popFree inv⟩
  | popRereadNext hh n v hc₂ hpo hm =>
    obtain ⟨⟨mem, hd, tl⟩, pu, po, pushedL, poppedL⟩ := s
    dsimp only at hpo hm
    subst hpo
    exact ⟨H, allvals, sysInv_popRereadNext inv hm⟩
  | popSetHead hh n v nx hpo =>
    obtain ⟨⟨mem, hd, tl⟩, pu, po, pushedL, poppedL⟩ := s
    dsimp only at hpo
    subst hpo
    exact ⟨H + 1, allvals, sysInv_popSetHead inv⟩

theorem sysReach_inv {α : Type} {s : Sys α} (hr : SysReach s) : SysInv s := by
  induction hr with
  | init => exact ⟨0, [], sysInv_init⟩
  | step hr hstep ih => exact sysInv_step hstep ih

theorem sysFinal_reach : SysReach sysFinal := by
  have h0 : SysReach (Sys.init Nat) := SysReach.init
  have h1 := SysReach.step h0 (Step.pushStart (Sys.init Nat) 5 rfl)
  have h2 := SysReach.step h1 (Step.pushReadTail _ 1 5 0 rfl rfl)
  have h3 := SysReach.step h2 (Step.pushLink _ 1 5 0 ⟨⟨none, none⟩, true⟩ rfl rfl)
  have h4 := SysReach.step h3 (Step.pushAdvanceTail _ 1 5 rfl)
  have h5 := SysReach.step h4 (Step.popReadHead _ 0 rfl rfl)
  have h6 := SysReach.step h5
    (Step.popReadNextSome _ 0 1 ⟨⟨none, some 1⟩, true⟩ rfl rfl rfl)
  have h7 := SysReach.step h6
    (Step.popTake _ 0 1 ⟨⟨some 5, none⟩, true⟩ 5 rfl rfl rfl)
  have h8 := SysReach.step h7 (Step.popFree _ 0 1 5 rfl)
  have h9 := SysReach.step h8
    (Step.popRereadNext _ 0 1 5 ⟨⟨none, some 1⟩, false⟩ rfl rfl)
  have h10 := SysReach.step h9 (Step.popSetHead _ 0 1 5 (some 1) rfl)
  exact h10

/-- Supporting lemma, scope limited to the non-reusing allocator machine
`Step`/`SysReach`: there, every quiescent reachable state satisfies that the
completed pushes are exactly the completed pops followed by the still-queued
values, in order, so a drained queue has popped = pushed.  This accounting
is exactly what fails once the allocator may recycle the sentinel freed
inside pop's free-to-reread window — see `c4_reuse_counterexample`. -/
theorem nonreuse_quiescent_accounting {α : Type} {s : Sys α} (hr : SysReach s)
    (hpu : s.pu = .idle) (hpo : s.po = .idle) :
    s.pushed = s.popped ++ s.q.toList ∧
    (s.q.toList = [] → Multiset.ofList s.pushed = Multiset.ofList s.popped ∧
      s.pushed = s.popped) := by
  obtain ⟨H, allvals, inv⟩ := sysReach_inv hr
  obtain ⟨⟨mem, hd, tl⟩, pu, po, pushedL, poppedL⟩ := s
  dsimp only at hpu hpo ⊢
  subst hpu
  subst hpo
  obtain ⟨hhead, hlen, hle, htail, hnext, hlive, hval, hpuk, hpok, hpop⟩ := inv
  dsimp only at hhead hlen hle htail hnext hlive hval hpuk hpok hpop
  have hle' : H ≤ mem.length - 1 := hle
  have htl : Queue.toList ⟨mem, hd, tl⟩ = allvals.drop H := by
    unfold Queue.toList
    rw [hhead]
    apply Queue.filterMap_of_map_some
    apply List.ext_getElem?
    intro k
    rw [List.getElem?_map, List.getElem?_drop, List.getElem?_map, List.getElem?_drop]
    by_cases hk : H + 1 + k < mem.length
    · obtain ⟨c, hc⟩ : ∃ c, mem[H + 1 + k]? = some c :=
        ⟨_, List.getElem?_eq_getElem hk⟩
      rw [hc]
      have hx : c.node.value =
          if H < H + 1 + k then allvals[H + 1 + k - 1]? else none :=
        hval (H + 1 + k) c hc
      rw [if_pos (by omega), show H + 1 + k - 1 = H + k by omega] at hx
      obtain ⟨a, ha⟩ : ∃ a, allvals[H + k]? = some a :=
        ⟨_, List.getElem?_eq_getElem (by omega)⟩
      rw [ha] at hx
      rw [ha]
      simp [hx]
    · rw [List.getElem?_eq_none (show mem.length ≤ H + 1 + k by omega)]
      rw [List.getElem?_eq_none (show allvals.length ≤ H + k by omega)]
      rfl
  have hfin : pushedL = poppedL ++ allvals.drop H := by
    rw [hpuk, hpop]
    exact (List.take_append_drop H allvals).symm
  constructor
  · rw [htl]
    exact hfin
  · intro hempty
    have hdrop : allvals.drop H = [] := htl.symm.trans hempty
    have heq : pushedL = poppedL := by
      rw [hfin, hdrop, List.append_nil]
    exact ⟨by rw [heq], heq⟩

/-- Concrete instantiation of `nonreuse_quiescent_accounting` on the run
that pushes 5 and then pops it. -/
theorem nonreuse_quiescent_accounting_run :
    sysFinal.pushed = sysFinal.popped ++ sysFinal.q.toList ∧
    (sysFinal.q.toList = [] → Multiset.ofList sysFinal.pushed =
      Multiset.ofList sysFinal.popped ∧ sysFinal.pushed = sysFinal.popped) :=
  nonreuse_quiescent_accounting sysFinal_reach rfl rfl

theorem sCorrupt_reach : SysReachR sCorrupt := by
  have h0 : SysReachR (Sys.init Nat) := SysReachR.init
  have h1 := SysReachR.step h0 (StepR.base (Step.pushStart (Sys.init Nat) 5 rfl))
  have h2 := SysReachR.step h1 (StepR.base (Step.pushReadTail _ 1 5 0 rfl rfl))
  have h3 := SysReachR.step h2
    (StepR.base (Step.pushLink _ 1 5 0 ⟨⟨none, none⟩, true⟩ rfl rfl))
  have h4 := SysReachR.step h3 (StepR.base (Step.pushAdvanceTail _ 1 5 rfl))
  have h5 := SysReachR.step h4 (StepR.base (Step.popReadHead _ 0 rfl rfl))
  have h6 := SysReachR.step h5
    (StepR.base (Step.popReadNextSome _ 0 1 ⟨⟨none, some 1⟩, true⟩ rfl rfl rfl))
  have h7 := SysReachR.step h6
    (StepR.base (Step.popTake _ 0 1 ⟨⟨some 5, none⟩, true⟩ 5 rfl rfl rfl))
  have h8 := SysReachR.step h7 (StepR.base (Step.popFree _ 0 1 5 rfl))
  have h9 := SysReachR.step h8
    (StepR.pushStartReuse _ 7 0 ⟨⟨none, some 1⟩, false⟩ rfl rfl rfl)
  have h10 := SysReachR.step h9
    (StepR.base (Step.popRereadNext _ 0 1 5 ⟨⟨some 7, none⟩, true⟩ rfl rfl))
  have h11 := SysReachR.step h10 (StepR.base (Step.popSetHead _ 0 1 5 none rfl))
  have h12 := SysReachR.step h11 (StepR.base (Step.pushReadTail _ 0 7 1 rfl rfl))
  have h13 := SysReachR.step h12
    (StepR.base (Step.pushLink _ 0 7 1 ⟨⟨none, none⟩, true⟩ rfl rfl))
  have h14 := SysReachR.step h13 (StepR.base (Step.pushAdvanceTail _ 0 7 rfl))
  exact h14

/-- C4 is violated by the code: with a reusing allocator, an interleaving
that fully respects the two-lock discipline loses a value.  In the concrete
run reaching `sCorrupt`, a consumer pops the single queued value 5; between
its `Box::from_raw` free of the old sentinel and its `*head = (**head).next`
re-read, a concurrent producer's `Node::new` (which runs before the tail
lock is acquired) is handed the freed sentinel cell for its new node
carrying 7.  The re-read returns the reused node's null `next`, the pop
writes `head := null`, and the push completes normally — after which both
threads are idle, 7 was pushed, is linked from the old chain, but is
unreachable: every further `pop` dereferences a null `head` (the `none`
outcome of `Queue.pop`, undefined behaviour in Rust), so the popped values
`[5]` can never grow to match the pushed values `[5, 7]`.  No value may be
lost according to the claim; here one is. -/
theorem c4_reuse_counterexample :
    ∃ s : Sys Nat, SysReachR s ∧ s.pu = .idle ∧ s.po = .idle ∧
      s.pushed = [5, 7] ∧ s.popped = [5] ∧ s.q.head = none ∧
      s.q.pop = none ∧
      Multiset.ofList s.pushed ≠ Multiset.ofList s.popped :=
  ⟨sCorrupt, sCorrupt_reach, rfl, rfl, rfl, rfl, rfl, rfl, by decide⟩
